import Mathlib

/-!
Verification of the PVECLIB quad-precision (IEEE binary128) soft-float
operations of `src/pveclib/vec_f128_ppc.h`, POWER8 software paths.

A `__binary128` value is modelled as its 128-bit pattern, a `Nat` below
`2 ^ 128`: bit 127 is the sign, bits 112..126 the biased exponent, bits
0..111 the fraction.  The 128-bit vector integer operations consumed from
the large-integer layer (`vec_slq`, `vec_srq`, `vec_sldq`, `vec_addcuq`,
`vec_clzq`, masks and selects) are modelled by explicit arithmetic on
`Nat`, with shift counts reduced modulo 128 as the hardware does.
-/

namespace VecF128

/-- Sign bit (bit 127) of a quad-precision pattern. -/
def signB (v : Nat) : Nat := v / 2 ^ 127 % 2

/-- Biased 15-bit exponent field (bits 112..126). -/
def expF (v : Nat) : Nat := v / 2 ^ 112 % 2 ^ 15

/-- 112-bit fraction field (bits 0..111). -/
def fracF (v : Nat) : Nat := v % 2 ^ 112

/-- Magnitude: the pattern with the sign bit cleared (AND with
vec_mask128_f128mag, i.e. 0x7fff..ff). -/
def magF (v : Nat) : Nat := v % 2 ^ 127

/-- vec_all_isnanf128: exponent field all ones and nonzero fraction. -/
def isNaN (v : Nat) : Prop := expF v = 0x7fff ∧ fracF v ≠ 0

instance (v : Nat) : Decidable (isNaN v) := by unfold isNaN; infer_instance

/-- vec_all_isinff128: exponent field all ones and zero fraction. -/
def isInf (v : Nat) : Prop := expF v = 0x7fff ∧ fracF v = 0

instance (v : Nat) : Decidable (isInf v) := by unfold isInf; infer_instance

/-- vec_slq / vec_slqi: quadword shift left, count taken modulo 128. -/
def slq (x sh : Nat) : Nat := x * 2 ^ (sh % 128) % 2 ^ 128

/-- vec_srq / vec_srqi: quadword shift right, count taken modulo 128. -/
def srq (x sh : Nat) : Nat := x / 2 ^ (sh % 128)

/-- vec_sldq / vec_sldqi: left-most 128 bits of the 256-bit concatenation
w:x shifted left by sh (modulo 128) bits. -/
def sldq (w x sh : Nat) : Nat := (w * 2 ^ 128 + x) * 2 ^ (sh % 128) / 2 ^ 128 % 2 ^ 128

/-- vec_addcuq of x with an all-ones addend: the carry out of
x + (2^128 - 1), which is 1 exactly when x is nonzero (for x < 2^128).
The add/sub/mul paths use this idiom to OR-reduce sticky bits. -/
def carry128 (x : Nat) : Nat := (x + (2 ^ 128 - 1)) / 2 ^ 128

/-- Binary length of n, structurally recursive on an explicit fuel. -/
def bitLenAux : Nat → Nat → Nat
  | 0, _ => 0
  | fuel + 1, n => if n = 0 then 0 else bitLenAux fuel (n / 2) + 1

/-- vec_clzq: count of leading zeros of a 128-bit value. -/
def clz128 (n : Nat) : Nat := 128 - bitLenAux 128 n

/-- vec_xsxsigqp: the 112-bit fraction with the hidden L-bit (bit 112)
restored when the value is normal (exponent neither 0 nor 0x7fff). -/
def vec_xsxsigqp (v : Nat) : Nat :=
  if expF v ≠ 0 ∧ expF v ≠ 0x7fff then fracF v + 2 ^ 112 else fracF v

/-- vec_xsiexpqp: keep sign (bit 127) and fraction (bits 0..111) from sig
and insert the 15-bit exponent into bits 112..126. -/
def vec_xsiexpqp (sig exp : Nat) : Nat :=
  sig / 2 ^ 127 * 2 ^ 127 + exp % 2 ^ 15 * 2 ^ 112 + sig % 2 ^ 112

/-- vec_negf128 (POWER8 path): XOR of the pattern with the sign-bit mask,
written arithmetically for patterns below 2^128. -/
def vec_negf128 (v : Nat) : Nat := if v < 2 ^ 127 then v + 2 ^ 127 else v - 2 ^ 127

/-- vec_const_nanf128: the default quiet NaN 0x7fff8000..0. -/
def vec_const_nanf128 : Nat := 0x7fff * 2 ^ 112 + 2 ^ 111

/-- Quieting an input NaN: OR in the QNaN bit (vec_mask128_f128Qbit,
bit 111). -/
def quietNaN (v : Nat) : Nat := Nat.lor v (2 ^ 111)

/-- A quiet NaN: NaN whose quiet bit (fraction bit 111) is set. -/
def isQNaN (v : Nat) : Prop := expF v = 0x7fff ∧ fracF v ≠ 0 ∧ v / 2 ^ 111 % 2 = 1

instance (v : Nat) : Decidable (isQNaN v) := by unfold isQNaN; infer_instance

/-- Positive infinity pattern 0x7fff0000..0. -/
def posInf : Nat := 0x7fff * 2 ^ 112

/-- Negative infinity pattern 0xffff0000..0. -/
def negInf : Nat := 2 ^ 127 + 0x7fff * 2 ^ 112

/-- Largest finite magnitude 0x7ffeffff..ff (__FLT128_MAX__). -/
def maxFinite : Nat := 0x7ffe * 2 ^ 112 + (2 ^ 112 - 1)

/-- Negative largest finite magnitude. -/
def negMaxFinite : Nat := 2 ^ 127 + 0x7ffe * 2 ^ 112 + (2 ^ 112 - 1)

/-- Two's-complement reading of a mod-2^64 doubleword, for the signed
doubleword compares (vec_cmpsd / vec_cmpgtsd) used on exponents. -/
def toS64 (x : Nat) : Int := if x < 2 ^ 63 then (x : Int) else (x : Int) - 2 ^ 64

/-- Signed doubleword less-than. -/
def sLt64 (x y : Nat) : Prop := toS64 x < toS64 y

instance (x y : Nat) : Decidable (sLt64 x y) := by unfold sLt64; infer_instance

/-- Round-to-odd step shared by vec_xsaddqpo and vec_xssubqpo
(vec_f128_ppc.h lines 8212-8216 and 8484-8488): isolate the 3 low GRX
bits, OR-reduce them via an all-ones add carry, shift them out and OR
the reduction into the least significant significand bit. -/
def roundToOddIR (s : Nat) : Nat := Nat.lor (s / 8) (carry128 (s % 8))

/-- Round-to-odd step of vec_xsmulqpo (lines 9610-9612): the whole low
product lane is the sticky accumulator; its OR-reduction (an all-ones
add carry) is ORed into the least significant significand bit. -/
def roundToOddMul (q_sig p_sig_l : Nat) : Nat := Nat.lor q_sig (carry128 p_sig_l)

/-- Intermediate state of the finite path shared by vec_xsaddqpo and
vec_xssubqpo: original first-operand sign, result sign, sign-difference
flag, working exponent and the combined 3-bit-preshifted significand. -/
structure AddIR where
  a_sign : Nat
  q_sign : Nat
  diff_sign : Bool
  q_exp : Nat
  s_sig : Nat

/-- Finite path of vec_xsaddqpo (lines 8087-8164) up to the combined
significand: insert hidden bits, correct denormal exponents to E_min,
shift left 3 for GRX, swap so the first operand has larger magnitude,
align the smaller significand (bits shifted out OR-reduced into the
X bit), then add or subtract (mod 2^128, vec_adduqm / vec_subuqm). -/
def addPrep (a_sign a_exp a_frac b_sign b_exp b_frac : Nat) : AddIR :=
  let a_mag := a_exp * 2 ^ 112 + a_frac
  let b_mag := b_exp * 2 ^ 112 + b_frac
  let a_sig := (if 0 < a_exp then a_frac + 2 ^ 112 else a_frac) * 8
  let b_sig := (if 0 < b_exp then b_frac + 2 ^ 112 else b_frac) * 8
  let a_expc := if 0 < a_exp then a_exp else 1
  let b_expc := if 0 < b_exp then b_exp else 1
  let diff_sign := a_sign != b_sign
  let swap := a_mag < b_mag
  let q_sign := if swap then b_sign else a_sign
  let x_a := if swap then b_expc else a_expc
  let x_b := if swap then a_expc else b_expc
  let s_a := if swap then b_sig else a_sig
  let s_b0 := if swap then a_sig else b_sig
  let s_b :=
    if x_b < x_a then
      let d := x_a - x_b
      let t_sig := if d < 128 then srq s_b0 d else 0
      let x_bits := if d < 128 then slq s_b0 (128 - d) else s_b0
      Nat.lor t_sig (carry128 x_bits)
    else s_b0
  let s_sig :=
    if diff_sign then (s_a + 2 ^ 128 - s_b) % 2 ^ 128 else (s_a + s_b) % 2 ^ 128
  ⟨a_sign, q_sign, diff_sign, x_a, s_sig⟩

/-- Carry and below-normal normalization of vec_xsaddqpo (lines
8172-8211): on carry-out shift right one (LSB ORed back, sticky
preserved) and bump the exponent; when the L bit is clear count leading
zeros (the IR has 12 of them) and shift left by at most the distance to
E_min, forcing a zero exponent for a denormal result. -/
def addNorm (ir : AddIR) : AddIR :=
  let t_sig := ir.s_sig / 2 ^ 112 % 2 ^ 8
  if 15 < t_sig then
    ⟨ir.a_sign, ir.q_sign, ir.diff_sign, ir.q_exp + 1,
      Nat.lor (srq ir.s_sig 1) (ir.s_sig % 2)⟩
  else if t_sig ≤ 7 then
    let c_exp := clz128 ir.s_sig - 12
    let d_exp := min c_exp (ir.q_exp - 1)
    let nrm := 1 < ir.q_exp
    let emask := c_exp < ir.q_exp
    let s2 := if nrm then slq ir.s_sig d_exp else ir.s_sig
    let e2 := if emask ∧ nrm then ir.q_exp - d_exp else 0
    ⟨ir.a_sign, ir.q_sign, ir.diff_sign, e2, s2⟩
  else ir

/-- Round to odd, exponent-overflow check and final pack of
vec_xsaddqpo (lines 8212-8228): on overflow return the signed largest
finite value instead of infinity. -/
def addPack (ir : AddIR) : Nat :=
  let q_sig := roundToOddIR ir.s_sig
  if 0x7fff ≤ ir.q_exp then
    ir.q_sign * 2 ^ 127 + 0x7ffe * 2 ^ 112 + (2 ^ 112 - 1)
  else
    vec_xsiexpqp (Nat.lor q_sig (ir.q_sign * 2 ^ 127)) ir.q_exp

/-- vec_xsaddqpo (POWER8 soft-float path, lines 8052-8272). -/
def vec_xsaddqpo (vfa vfb : Nat) : Nat :=
  if expF vfa < 0x7fff ∧ expF vfb < 0x7fff then
    let ir := addPrep (signB vfa) (expF vfa) (fracF vfa)
      (signB vfb) (expF vfb) (fracF vfb)
    if ir.s_sig = 0 then (if ir.diff_sign then 0 else ir.a_sign) * 2 ^ 127
    else addPack (addNorm ir)
  else if isNaN vfa then quietNaN vfa
  else if isNaN vfb then quietNaN vfb
  else if expF vfa = 0x7fff ∧ expF vfb = 0x7fff ∧ signB vfa ≠ signB vfb then
    vec_const_nanf128
  else if expF vfa = 0x7fff then vfa
  else vfb

/-- vec_xssubqpo (POWER8 soft-float path, lines 8320-8544): the second
operand sign bit is negated inside the finite path before the add logic;
a NaN second operand is quieted without negation; infinity minus a
same-signed infinity gives the default quiet NaN; a lone infinite second
operand is returned negated. -/
def vec_xssubqpo (vfa vfb : Nat) : Nat :=
  if expF vfa < 0x7fff ∧ expF vfb < 0x7fff then
    let ir := addPrep (signB vfa) (expF vfa) (fracF vfa)
      (1 - signB vfb) (expF vfb) (fracF vfb)
    if ir.s_sig = 0 then (if ir.diff_sign then 0 else ir.a_sign) * 2 ^ 127
    else addPack (addNorm ir)
  else if isNaN vfa then quietNaN vfa
  else if isNaN vfb then quietNaN vfb
  else if expF vfa = 0x7fff ∧ expF vfb = 0x7fff ∧ signB vfa = signB vfb then
    vec_const_nanf128
  else if expF vfa = 0x7fff then vfa
  else vec_negf128 vfb

/-- State of the vec_xsmulqpo finite path just before rounding: the
working significand, the low product lane (uncollected sticky bits) and
the (mod 2^64) exponent. -/
structure MulIR where
  qsig : Nat
  lbits : Nat
  e : Nat

/-- Finite path of vec_xsmulqpo (lines 9424-9607): insert hidden bits,
shift left 8, take the 256-bit product split into two lanes, sum the
E_min-corrected exponents less one bias (mod 2^64, vec_subudm), then
carry normalization, tiny-exponent handling (two sub-cases) and
below-normal-range normalization, as in the source. -/
def mulCore (a_exp a_frac b_exp b_frac : Nat) : MulIR :=
  let a_sig := (if 0 < a_exp then a_frac + 2 ^ 112 else a_frac) * 2 ^ 8
  let b_sig := (if 0 < b_exp then b_frac + 2 ^ 112 else b_frac) * 2 ^ 8
  let p_sig_h := a_sig * b_sig / 2 ^ 128
  let p_sig_l := a_sig * b_sig % 2 ^ 128
  let a_expc := if a_exp = 0 then 1 else a_exp
  let b_expc := if b_exp = 0 then 1 else b_exp
  let q_exp0 := (a_expc + b_expc + 2 ^ 64 - 0x3fff) % 2 ^ 64
  let carry := 1 < p_sig_h / 2 ^ 112 % 2 ^ 16
  let p_tmp := sldq p_sig_h p_sig_l 120
  let h1 := if carry then srq p_sig_h 1 else p_sig_h
  let l1 := if carry then slq p_tmp 7 else p_sig_l
  let e1 := if carry then (q_exp0 + 1) % 2 ^ 64 else q_exp0
  let (h2, l2, s2, e2) :=
    if sLt64 e1 1 then
      let xs := (1 + 2 ^ 64 - e1) % 2 ^ 64
      if 116 < xs then
        let t := (Nat.lor (srq l1 8) h1 + (2 ^ 125 - 1)) % 2 ^ 128
        (h1, t / 2 ^ 125 * 2 ^ 125, 0, 0)
      else
        let t := (l1 % 2 ^ 125 + (2 ^ 125 - 1)) % 2 ^ 128
        let lx := Nat.lor l1 t / 2 ^ 125 * 2 ^ 125
        let h3 := srq h1 xs
        (h3, sldq h1 lx (128 - xs), h3, 0)
    else (h1, l1, h1, e1)
  if h2 / 2 ^ 112 % 2 ^ 16 = 0 then
    let c_exp := clz128 h2 - 15
    let d_exp := min c_exp ((e2 + 2 ^ 64 - 1) % 2 ^ 64)
    let emask := c_exp < e2
    if sLt64 1 e2 then
      let h3 := sldq h2 l2 d_exp
      let e3 := (e2 + 2 ^ 64 - d_exp) % 2 ^ 64
      ⟨h3, slq l2 d_exp, if emask then e3 else 0⟩
    else ⟨s2, l2, 0⟩
  else ⟨s2, l2, e2⟩

/-- Round to odd, exponent-overflow check and final pack of
vec_xsmulqpo (lines 9610-9635): on overflow return the signed largest
finite value instead of infinity, otherwise merge sign, exponent and
significand. -/
def mulPack (q_sign : Nat) (ir : MulIR) : Nat :=
  let q_sig := roundToOddMul ir.qsig ir.lbits
  if 0x7fff ≤ ir.e then
    q_sign * 2 ^ 127 + 0x7ffe * 2 ^ 112 + (2 ^ 112 - 1)
  else
    vec_xsiexpqp (Nat.lor q_sig (q_sign * 2 ^ 127)) ir.e

/-- vec_xsmulqpo (POWER8 soft-float path, lines 9396-9681). -/
def vec_xsmulqpo (vfa vfb : Nat) : Nat :=
  let q_sign := Nat.xor (signB vfa) (signB vfb)
  if expF vfa < 0x7fff ∧ expF vfb < 0x7fff then
    let a_sig := (if 0 < expF vfa then fracF vfa + 2 ^ 112 else fracF vfa) * 2 ^ 8
    let b_sig := (if 0 < expF vfb then fracF vfb + 2 ^ 112 else fracF vfb) * 2 ^ 8
    if a_sig = 0 ∨ b_sig = 0 then q_sign * 2 ^ 127
    else mulPack q_sign (mulCore (expF vfa) (fracF vfa) (expF vfb) (fracF vfb))
  else if isNaN vfa then quietNaN vfa
  else if isNaN vfb then quietNaN vfb
  else if expF vfa = 0x7fff ∧ expF vfb = 0x7fff then
    Nat.lor (0x7fff * 2 ^ 112) (q_sign * 2 ^ 127)
  else if magF vfa = 0 ∨ magF vfb = 0 then vec_const_nanf128
  else Nat.lor (0x7fff * 2 ^ 112) (q_sign * 2 ^ 127)

/-- vec_xscvuqqp (POWER8 path, lines 9287-9347): unsigned quadword to
quad-precision with round-to-nearest-even; zero is a special case, any
other value is normalized by its leading-zero count, the LSB of the
113-bit significand is ORed into the sticky field and a biased constant
add produces the RNE carry. -/
def vec_xscvuqqp (n : Nat) : Nat :=
  if n = 0 then 0
  else
    let i64_clz := clz128 n
    let q_sig := slq n i64_clz
    let q_exp := 0x3fff + 127 - i64_clz
    let q_odd := q_sig / 2 ^ 15 % 2
    let q_sig1 := Nat.lor q_sig q_odd
    let q_carry := (q_sig1 + 0x3fff) / 2 ^ 128
    let q_sig2 := (q_sig1 + 0x3fff) % 2 ^ 128
    let q_sig3 := if q_carry = 1 then sldq q_carry q_sig2 112 else srq q_sig2 15
    vec_xsiexpqp q_sig3 (q_exp + q_carry)

/-- vec_xscvqpuqz (POWER8/POWER9 path, lines 8900-8946): quad-precision
to unsigned quadword with truncation; out-of-range magnitudes saturate
to all ones, negative or sub-unit values to zero, positive infinity to
all ones, NaN to zero. -/
def vec_xscvqpuqz (v : Nat) : Nat :=
  if expF v ≠ 0x7fff then
    if 0x3fff ≤ expF v ∧ signB v = 0 then
      if expF v < 0x3fff + 128 then
        srq (slq (vec_xsxsigqp v) 15) (0x3fff + 127 - expF v)
      else 2 ^ 128 - 1
    else 0
  else if fracF v = 0 ∧ signB v = 0 then 2 ^ 128 - 1 else 0

/-- vec_xscvqpudz (POWER8 path, lines 8816-8862): quad-precision to
unsigned doubleword with truncation, modelling doubleword element 0 of
the result (the per-lane vec_vsrd shift keeps the high lane, which
vec_mrgahd then selects). -/
def vec_xscvqpudz (v : Nat) : Nat :=
  if expF v ≠ 0x7fff then
    if 0x3fff ≤ expF v ∧ signB v = 0 then
      if expF v < 0x3fff + 64 then
        slq (vec_xsxsigqp v) 15 / 2 ^ 64 / 2 ^ ((0x3fff + 63 - expF v) % 64)
      else 2 ^ 64 - 1
    else 0
  else if fracF v = 0 ∧ signB v = 0 then 2 ^ 64 - 1 else 0

/-- vec_xviexpdp on the high doubleword lane: keep sign (bit 63) and
fraction (bits 0..51) from sig and insert the 11-bit exponent. -/
def vec_xviexpdp (sig exp : Nat) : Nat :=
  sig / 2 ^ 63 * 2 ^ 63 + exp % 2 ^ 11 * 2 ^ 52 + sig % 2 ^ 52

/-- vec_xscvqpdpo (POWER8 path, lines 8692-8778): quad-precision to
double-precision with round-to-odd, modelling doubleword element 0 of
the result.  Finite in-range values are narrowed with the low 60 bits
OR-reduced into the double LSB; too-large values saturate to the
largest finite double; tiny values denormalize; NaN is quieted (QNaN
bit 111, bit 51 of the double fraction) while infinity passes through. -/
def vec_xscvqpdpo (v : Nat) : Nat :=
  let q_exp := expF v
  let q_sig := vec_xsxsigqp v
  let sign := signB v
  let (d_sig, d_exp) :=
    if q_exp ≠ 0x7fff then
      if 0x3fff - 1022 ≤ q_exp then
        if q_exp ≤ 0x3fff + 1023 then
          let s := slq q_sig 4
          let dX := if 0 < s % 2 ^ 64 then 1 else 0
          (Nat.lor (s / 2 ^ 64) dX, q_exp - (0x3fff - 0x3ff))
        else (0x001fffffffffffff, 0x7fe)
      else
        if 0x3fff - (1022 + 53) < q_exp then
          let d := srq (slq q_sig 4) (0x3fff - 1022 - q_exp)
          let dX := if 0 < d % 2 ^ 64 then 1 else 0
          (Nat.lor (d / 2 ^ 64) dX, 0)
        else (carry128 q_sig, 0)
    else
      if fracF v = 0 then (q_sig / 2 ^ 60, 0x7ff)
      else (Nat.lor q_sig (2 ^ 111) / 2 ^ 60, 0x7ff)
  vec_xviexpdp (Nat.lor d_sig (sign * 2 ^ 63)) d_exp

/-- vec_cmpequqp (POWER8 path, lines 5182-5197) as a Boolean (the
vector mask is all ones or all zeros): bit patterns equal, or the OR of
the patterns is exactly the sign mask (both zeros, opposite signs), and
neither operand is NaN (vec_isunorderedf128). -/
def vec_cmpequqp (vfa vfb : Nat) : Bool :=
  decide ((vfa = vfb ∨ Nat.lor vfa vfb = 2 ^ 127) ∧ ¬(isNaN vfa ∨ isNaN vfb))

/-! Helper lemmas about the bit-level primitives. -/

theorem lor_eq_or (a b : Nat) : Nat.lor a b = a ||| b := rfl

theorem lor_split (k a b : Nat) :
    Nat.lor a b = 2 ^ k * Nat.lor (a / 2 ^ k) (b / 2 ^ k) + Nat.lor (a % 2 ^ k) (b % 2 ^ k) := by
  simp only [lor_eq_or]
  have hlt : (a % 2 ^ k) ||| (b % 2 ^ k) < 2 ^ k :=
    Nat.or_lt_two_pow (Nat.mod_lt _ (Nat.two_pow_pos k)) (Nat.mod_lt _ (Nat.two_pow_pos k))
  apply Nat.eq_of_testBit_eq
  intro j
  rw [Nat.testBit_mul_pow_two_add _ hlt]
  by_cases hj : j < k
  · simp [hj, Nat.testBit_or, Nat.testBit_mod_two_pow]
  · have hd : ∀ x : Nat, (x / 2 ^ k).testBit (j - k) = x.testBit j := by
      intro x
      rw [← Nat.shiftRight_eq_div_pow, Nat.testBit_shiftRight]
      congr 1
      omega
    simp [hj, Nat.testBit_or, hd]

theorem lor_one (a : Nat) : Nat.lor a 1 = 2 * (a / 2) + 1 := by
  have h := lor_split 1 a 1
  norm_num at h
  rcases Nat.mod_two_eq_zero_or_one a with h2 | h2 <;>
    rw [h2] at h <;> simpa [lor_eq_or, Nat.or_zero, Nat.zero_or] using h

theorem lor_le_one (a c : Nat) (hc : c ≤ 1) (ha : a % 2 = 0) : Nat.lor a c = a + c := by
  interval_cases c
  · simp [lor_eq_or, Nat.or_zero]
  · rw [lor_one]
    omega

theorem lor_pow (a k : Nat) :
    Nat.lor a (2 ^ k) = 2 ^ (k + 1) * (a / 2 ^ (k + 1)) + 2 ^ k + a % 2 ^ k := by
  have h := lor_split k a (2 ^ k)
  rw [Nat.div_self (Nat.two_pow_pos k), Nat.mod_self] at h
  rw [h, lor_one, lor_eq_or, Nat.or_zero, Nat.div_div_eq_div_mul, ← Nat.pow_succ]
  ring

theorem lor_zero_parts (a b : Nat) (h : Nat.lor a b = 0) : a = 0 ∧ b = 0 := by
  simp only [lor_eq_or] at h
  constructor
  · have : a ≤ a ||| b := Nat.le_of_testBit (by intro i hi; simp [Nat.testBit_or, hi])
    omega
  · have : b ≤ a ||| b := Nat.le_of_testBit (by intro i hi; simp [Nat.testBit_or, hi])
    omega

theorem carry128_eq (x : Nat) (h : x < 2 ^ 128) :
    carry128 x = if x = 0 then 0 else 1 := by
  unfold carry128
  split <;> omega

theorem signB_le (v : Nat) : signB v ≤ 1 := by
  unfold signB
  omega

theorem fracF_lt (v : Nat) : fracF v < 2 ^ 112 := by
  unfold fracF
  omega

theorem expF_lt (v : Nat) : expF v < 2 ^ 15 := by
  unfold expF
  omega

theorem sig_lt (v : Nat) : vec_xsxsigqp v < 2 ^ 113 := by
  unfold vec_xsxsigqp
  have := fracF_lt v
  split <;> omega

theorem expF_xsiexpqp (sig e : Nat) : expF (vec_xsiexpqp sig e) = e % 2 ^ 15 := by
  unfold expF vec_xsiexpqp
  omega

theorem quietNaN_fields (v : Nat) :
    expF (quietNaN v) = expF v ∧ signB (quietNaN v) = signB v ∧
    fracF (quietNaN v) = 2 ^ 111 + v % 2 ^ 111 ∧ quietNaN v / 2 ^ 111 % 2 = 1 := by
  have h := lor_pow v 111
  unfold quietNaN expF signB fracF
  rw [h]
  norm_num
  omega

theorem negf_proj (v : Nat) (h : v < 2 ^ 128) :
    expF (vec_negf128 v) = expF v ∧ fracF (vec_negf128 v) = fracF v ∧
    signB (vec_negf128 v) = 1 - signB v ∧ magF (vec_negf128 v) = magF v := by
  unfold vec_negf128 expF fracF signB magF
  split <;> omega

theorem isNaN_negf (v : Nat) (h : v < 2 ^ 128) : isNaN (vec_negf128 v) ↔ isNaN v := by
  obtain ⟨h1, h2, -, -⟩ := negf_proj v h
  unfold isNaN
  rw [h1, h2]

theorem addPrep_a_sign (a_sign a_exp a_frac b_sign b_exp b_frac : Nat) :
    (addPrep a_sign a_exp a_frac b_sign b_exp b_frac).a_sign = a_sign := rfl

theorem addPrep_diff_sign (a_sign a_exp a_frac b_sign b_exp b_frac : Nat) :
    (addPrep a_sign a_exp a_frac b_sign b_exp b_frac).diff_sign = (a_sign != b_sign) := rfl

theorem bitLenAux_zero (fuel : Nat) : bitLenAux fuel 0 = 0 := by
  cases fuel <;> simp [bitLenAux]

theorem bitLenAux_spec : ∀ fuel n : Nat, n < 2 ^ fuel → n ≠ 0 →
    1 ≤ bitLenAux fuel n ∧ bitLenAux fuel n ≤ fuel ∧
    2 ^ (bitLenAux fuel n - 1) ≤ n ∧ n < 2 ^ bitLenAux fuel n := by
  intro fuel
  induction fuel with
  | zero => intro n hn h0; omega
  | succ f ih =>
    intro n hn h0
    rw [bitLenAux, if_neg h0]
    by_cases h1 : n / 2 = 0
    · have he : n = 1 := by omega
      subst he
      rw [bitLenAux_zero]
      norm_num
    · have hd : n / 2 < 2 ^ f := by
        have hp : 2 ^ (f + 1) = 2 ^ f * 2 := Nat.pow_succ 2 f
        omega
      obtain ⟨l1, l2, l3, l4⟩ := ih (n / 2) hd h1
      set m := bitLenAux f (n / 2) with hm
      have hp1 : 2 ^ m = 2 ^ (m - 1) * 2 := by
        conv_lhs => rw [show m = m - 1 + 1 by omega]
        exact Nat.pow_succ 2 (m - 1)
      have hp2 : 2 ^ (m + 1) = 2 ^ m * 2 := Nat.pow_succ 2 m
      refine ⟨by omega, by omega, ?_, by omega⟩
      have : m + 1 - 1 = m := by omega
      rw [this]
      omega

/-- C1: In the final rounding step of the soft-float add, subtract and
multiply (vec_xsaddqpo, vec_xssubqpo, vec_xsmulqpo), round-to-odd
leaves the truncated significand unchanged when all Guard/Round/Sticky
bits are zero and otherwise forces its least significant bit to 1 by
logical OR; the rounded significand never exceeds the truncated
significand plus its forced LSB (never increments the magnitude) and
never carries out of the significand (all higher bits unchanged). -/
theorem claim1_round_to_odd :
    (∀ s : Nat,
      (s % 8 = 0 → roundToOddIR s = s / 8) ∧
      (s % 8 ≠ 0 → roundToOddIR s = Nat.lor (s / 8) 1) ∧
      roundToOddIR s ≤ s / 8 + 1 ∧
      roundToOddIR s / 2 = s / 8 / 2) ∧
    (∀ q l : Nat, l < 2 ^ 128 →
      (l = 0 → roundToOddMul q l = q) ∧
      (l ≠ 0 → roundToOddMul q l = Nat.lor q 1) ∧
      roundToOddMul q l ≤ q + 1 ∧
      roundToOddMul q l / 2 = q / 2) := by
  constructor
  · intro s
    have hc := carry128_eq (s % 8) (by omega)
    by_cases h8 : s % 8 = 0
    · rw [if_pos h8] at hc
      have he : roundToOddIR s = s / 8 := by
        unfold roundToOddIR
        rw [hc, lor_eq_or, Nat.or_zero]
      exact ⟨fun _ => he, fun h => absurd h8 h, by omega, by rw [he]⟩
    · rw [if_neg h8] at hc
      have he : roundToOddIR s = 2 * (s / 8 / 2) + 1 := by
        unfold roundToOddIR
        rw [hc, lor_one]
      have h2 : Nat.lor (s / 8) 1 = 2 * (s / 8 / 2) + 1 := lor_one _
      exact ⟨fun h => absurd h h8, fun _ => by rw [he, h2], by omega, by omega⟩
  · intro q l hl
    have hc := carry128_eq l hl
    by_cases h0 : l = 0
    · rw [if_pos h0] at hc
      have he : roundToOddMul q l = q := by
        unfold roundToOddMul
        rw [hc, lor_eq_or, Nat.or_zero]
      exact ⟨fun _ => he, fun h => absurd h0 h, by omega, by rw [he]⟩
    · rw [if_neg h0] at hc
      have he : roundToOddMul q l = 2 * (q / 2) + 1 := by
        unfold roundToOddMul
        rw [hc, lor_one]
      have h2 : Nat.lor q 1 = 2 * (q / 2) + 1 := lor_one _
      exact ⟨fun h => absurd h h0, fun _ => by rw [he, h2], by omega, by omega⟩

/-- Witness for C1 at concrete inputs. -/
theorem claim1_round_to_odd_witness :
    roundToOddIR 11 = Nat.lor (11 / 8) 1 ∧ roundToOddIR 16 = 16 / 8 ∧
    (3 : Nat) < 2 ^ 128 ∧ roundToOddMul 4 3 = Nat.lor 4 1 :=
  ⟨(claim1_round_to_odd.1 11).2.1 (by decide),
   (claim1_round_to_odd.1 16).1 (by decide),
   by decide,
   (claim1_round_to_odd.2 4 3 (by decide)).2.1 (by decide)⟩

/-- Exponent field of the packed add/sub result is what was inserted. -/
theorem expF_addPack (ir : AddIR) : expF (addPack ir) ≤ 0x7ffe := by
  unfold addPack
  split
  · simp only [expF]
    omega
  · simp only [expF_xsiexpqp]
    omega

/-- Exponent field of the packed multiply result is what was inserted. -/
theorem expF_mulPack (sgn : Nat) (ir : MulIR) : expF (mulPack sgn ir) ≤ 0x7ffe := by
  unfold mulPack
  split
  · simp only [expF]
    omega
  · simp only [expF_xsiexpqp]
    omega

/-- C2: For finite operands the round-to-odd add and multiply never
produce an exponent field above 0x7ffe (never infinity); whenever the
intermediate exponent reaches the NaN/infinity range the pack step
returns the largest finite magnitude with the result sign; and
multiply of MAX_FINITE by MAX_FINITE returns MAX_FINITE with sign the
XOR of the input signs (likewise overflowing adds). -/
theorem claim2_overflow_maxfinite :
    (∀ vfa vfb : Nat, expF vfa < 0x7fff → expF vfb < 0x7fff →
      expF (vec_xsaddqpo vfa vfb) ≤ 0x7ffe ∧ expF (vec_xsmulqpo vfa vfb) ≤ 0x7ffe) ∧
    (∀ ir : AddIR, 0x7fff ≤ ir.q_exp →
      addPack ir = ir.q_sign * 2 ^ 127 + 0x7ffe * 2 ^ 112 + (2 ^ 112 - 1)) ∧
    (∀ sgn : Nat, ∀ ir : MulIR, 0x7fff ≤ ir.e →
      mulPack sgn ir = sgn * 2 ^ 127 + 0x7ffe * 2 ^ 112 + (2 ^ 112 - 1)) ∧
    vec_xsmulqpo maxFinite maxFinite = maxFinite ∧
    vec_xsmulqpo negMaxFinite maxFinite = negMaxFinite ∧
    vec_xsmulqpo maxFinite negMaxFinite = negMaxFinite ∧
    vec_xsmulqpo negMaxFinite negMaxFinite = maxFinite ∧
    vec_xsaddqpo maxFinite maxFinite = maxFinite ∧
    vec_xsaddqpo negMaxFinite negMaxFinite = negMaxFinite := by
  refine ⟨?_, ?_, ?_, by decide, by decide, by decide, by decide, by decide, by decide⟩
  · intro vfa vfb ha hb
    constructor
    · unfold vec_xsaddqpo
      rw [if_pos ⟨ha, hb⟩]
      by_cases hz : (addPrep (signB vfa) (expF vfa) (fracF vfa)
          (signB vfb) (expF vfb) (fracF vfb)).s_sig = 0
      · simp only [if_pos hz]
        split <;> (simp only [expF]; omega)
      · simp only [if_neg hz]
        exact expF_addPack _
    · unfold vec_xsmulqpo
      have hfin : expF vfa < 0x7fff ∧ expF vfb < 0x7fff := ⟨ha, hb⟩
      by_cases hz : ((if 0 < expF vfa then fracF vfa + 2 ^ 112 else fracF vfa) * 2 ^ 8 = 0 ∨
          (if 0 < expF vfb then fracF vfb + 2 ^ 112 else fracF vfb) * 2 ^ 8 = 0)
      · simp only [if_pos hfin, if_pos hz]
        simp only [expF]
        omega
      · simp only [if_pos hfin, if_neg hz]
        exact expF_mulPack _ _
  · intro ir h
    unfold addPack
    rw [if_pos h]
  · intro sgn ir h
    unfold mulPack
    rw [if_pos h]

/-- C3: For add and multiply, a NaN first operand vfa yields vfa with
the quiet bit (fraction bit 111) ORed in; otherwise a NaN second
operand vfb yields vfb with the quiet bit ORed in.  The result is
always a quiet NaN, never a signaling NaN, for any second operand. -/
theorem claim3_nan_propagation :
    ∀ vfa vfb : Nat,
      (isNaN vfa →
        vec_xsaddqpo vfa vfb = quietNaN vfa ∧ vec_xsmulqpo vfa vfb = quietNaN vfa ∧
        isQNaN (quietNaN vfa)) ∧
      (¬isNaN vfa → isNaN vfb →
        vec_xsaddqpo vfa vfb = quietNaN vfb ∧ vec_xsmulqpo vfa vfb = quietNaN vfb ∧
        isQNaN (quietNaN vfb)) := by
  have hq : ∀ v, isNaN v → isQNaN (quietNaN v) := by
    intro v hv
    obtain ⟨he, hf⟩ := hv
    obtain ⟨e1, s1, f1, q1⟩ := quietNaN_fields v
    refine ⟨by rw [e1, he], by rw [f1]; positivity, q1⟩
  intro vfa vfb
  constructor
  · intro ha
    have hna : ¬(expF vfa < 0x7fff ∧ expF vfb < 0x7fff) := by
      obtain ⟨he, -⟩ := ha
      omega
    refine ⟨?_, ?_, hq vfa ha⟩
    · unfold vec_xsaddqpo
      rw [if_neg hna, if_pos ha]
    · unfold vec_xsmulqpo
      simp only [if_neg hna, if_pos ha]
  · intro hna hb
    have hnf : ¬(expF vfa < 0x7fff ∧ expF vfb < 0x7fff) := by
      obtain ⟨he, -⟩ := hb
      omega
    refine ⟨?_, ?_, hq vfb hb⟩
    · unfold vec_xsaddqpo
      rw [if_neg hnf, if_neg hna, if_pos hb]
    · unfold vec_xsmulqpo
      simp only [if_neg hnf, if_neg hna, if_pos hb]

/-- Witness for C3 at concrete inputs: a signaling NaN first operand
and a finite second operand. -/
theorem claim3_nan_propagation_witness :
    isNaN (0x7fff * 2 ^ 112 + 1) ∧
    vec_xsaddqpo (0x7fff * 2 ^ 112 + 1) (0x3fff * 2 ^ 112) =
      quietNaN (0x7fff * 2 ^ 112 + 1) ∧
    isQNaN (quietNaN (0x7fff * 2 ^ 112 + 1)) :=
  ⟨by decide,
   ((claim3_nan_propagation (0x7fff * 2 ^ 112 + 1) (0x3fff * 2 ^ 112)).1 (by decide)).1,
   ((claim3_nan_propagation (0x7fff * 2 ^ 112 + 1) (0x3fff * 2 ^ 112)).1 (by decide)).2.2⟩

/-- C4: The shared special-case table for infinity operands with no NaN
present: same-signed infinities add to that infinity, opposite-signed
infinities add to the default quiet NaN; infinity times infinity is
infinity with the XOR sign; infinity times any nonzero finite value is
the signed infinity; infinity times a zero of either sign is the
default quiet NaN. -/
theorem claim4_special_table :
    (vec_xsaddqpo posInf posInf = posInf ∧
     vec_xsaddqpo negInf negInf = negInf ∧
     vec_xsaddqpo posInf negInf = vec_const_nanf128 ∧
     vec_xsaddqpo negInf posInf = vec_const_nanf128) ∧
    (vec_xsmulqpo posInf posInf = posInf ∧
     vec_xsmulqpo posInf negInf = negInf ∧
     vec_xsmulqpo negInf posInf = negInf ∧
     vec_xsmulqpo negInf negInf = posInf) ∧
    (vec_xsmulqpo posInf 0 = vec_const_nanf128 ∧
     vec_xsmulqpo posInf (2 ^ 127) = vec_const_nanf128 ∧
     vec_xsmulqpo negInf 0 = vec_const_nanf128 ∧
     vec_xsmulqpo negInf (2 ^ 127) = vec_const_nanf128 ∧
     vec_xsmulqpo 0 posInf = vec_const_nanf128 ∧
     vec_xsmulqpo 0 negInf = vec_const_nanf128 ∧
     vec_xsmulqpo (2 ^ 127) posInf = vec_const_nanf128 ∧
     vec_xsmulqpo (2 ^ 127) negInf = vec_const_nanf128) ∧
    (∀ v : Nat, expF v < 0x7fff → magF v ≠ 0 →
      vec_xsmulqpo posInf v = signB v * 2 ^ 127 + posInf ∧
      vec_xsmulqpo negInf v = (1 - signB v) * 2 ^ 127 + posInf ∧
      vec_xsmulqpo v posInf = signB v * 2 ^ 127 + posInf ∧
      vec_xsmulqpo v negInf = (1 - signB v) * 2 ^ 127 + posInf) := by
  refine ⟨by refine ⟨by decide, by decide, by decide, by decide⟩,
    by refine ⟨by decide, by decide, by decide, by decide⟩,
    by refine ⟨by decide, by decide, by decide, by decide,
      by decide, by decide, by decide, by decide⟩, ?_⟩
  intro v h1 h2
  have hs : signB v ≤ 1 := signB_le v
  have hnan : ¬isNaN v := by
    intro hn
    obtain ⟨he, -⟩ := hn
    omega
  have hepos : expF posInf = 0x7fff := by decide
  have heneg : expF negInf = 0x7fff := by decide
  have hnanp : ¬isNaN posInf := by decide
  have hnann : ¬isNaN negInf := by decide
  have hmagp : magF posInf ≠ 0 := by decide
  have hmagn : magF negInf ≠ 0 := by decide
  have hsv : signB v = 0 ∨ signB v = 1 := by omega
  refine ⟨?_, ?_, ?_, ?_⟩
  · unfold vec_xsmulqpo
    rw [if_neg (by omega), if_neg hnanp, if_neg hnan, if_neg (by omega),
      if_neg (by intro hc; rcases hc with hc | hc; exact hmagp hc; exact h2 hc)]
    rcases hsv with h | h <;> rw [h] <;> decide
  · unfold vec_xsmulqpo
    rw [if_neg (by omega), if_neg hnann, if_neg hnan, if_neg (by omega),
      if_neg (by intro hc; rcases hc with hc | hc; exact hmagn hc; exact h2 hc)]
    rcases hsv with h | h <;> rw [h] <;> decide
  · unfold vec_xsmulqpo
    rw [if_neg (by omega), if_neg hnan, if_neg hnanp, if_neg (by omega),
      if_neg (by intro hc; rcases hc with hc | hc; exact h2 hc; exact hmagp hc)]
    rcases hsv with h | h <;> rw [h] <;> decide
  · unfold vec_xsmulqpo
    rw [if_neg (by omega), if_neg hnan, if_neg hnann, if_neg (by omega),
      if_neg (by intro hc; rcases hc with hc | hc; exact h2 hc; exact hmagn hc)]
    rcases hsv with h | h <;> rw [h] <;> decide

/-- Witness for C4 at a concrete nonzero finite second operand (1.0). -/
theorem claim4_special_table_witness :
    expF (0x3fff * 2 ^ 112) < 0x7fff ∧ magF (0x3fff * 2 ^ 112) ≠ 0 ∧
    vec_xsmulqpo posInf (0x3fff * 2 ^ 112) =
      signB (0x3fff * 2 ^ 112) * 2 ^ 127 + posInf :=
  ⟨by decide, by decide,
   (claim4_special_table.2.2.2 (0x3fff * 2 ^ 112) (by decide) (by decide)).1⟩

/-- C5 counterexample: when the first operand vfa is itself NaN, the
source prefers vfa, so vec_xssubqpo does not return the quieted second
NaN operand as the claim literally states for every pair. -/
theorem claim5_counterexample :
    isNaN (0x7fff * 2 ^ 112 + 2) ∧
    vec_xssubqpo (0x7fff * 2 ^ 112 + 1) (0x7fff * 2 ^ 112 + 2) ≠
      quietNaN (0x7fff * 2 ^ 112 + 2) := by
  decide

/-- C5 (amended): for a non-NaN second operand, vec_xssubqpo vfa vfb
equals vec_xsaddqpo vfa (vfb with its sign bit flipped); when vfb is
NaN and vfa is not, the result is vfb with only the quiet bit ORed in,
sign unchanged (the NaN is not negated before quieting). -/
theorem claim5_sub_eq_add_neg :
    ∀ vfa vfb : Nat, vfb < 2 ^ 128 →
      (¬isNaN vfb → vec_xssubqpo vfa vfb = vec_xsaddqpo vfa (vec_negf128 vfb)) ∧
      (¬isNaN vfa → isNaN vfb → vec_xssubqpo vfa vfb = quietNaN vfb) := by
  intro vfa vfb hb
  obtain ⟨hexp, hfrac, hsign, hmag⟩ := negf_proj vfb hb
  have hsa : signB vfa ≤ 1 := signB_le vfa
  have hsb : signB vfb ≤ 1 := signB_le vfb
  constructor
  · intro hnb
    have hnb2 : ¬isNaN (vec_negf128 vfb) := by
      rw [isNaN_negf vfb hb]
      exact hnb
    unfold vec_xssubqpo vec_xsaddqpo
    rw [hexp, hfrac, hsign]
    by_cases hfin : expF vfa < 0x7fff ∧ expF vfb < 0x7fff
    · simp only [if_pos hfin]
    · simp only [if_neg hfin]
      by_cases hna : isNaN vfa
      · simp only [if_pos hna]
      · simp only [if_neg hna, if_neg hnb, if_neg hnb2]
        by_cases hinf : expF vfa = 0x7fff ∧ expF vfb = 0x7fff ∧ signB vfa = signB vfb
        · rw [if_pos hinf, if_pos (show expF vfa = 0x7fff ∧ expF vfb = 0x7fff ∧
            signB vfa ≠ 1 - signB vfb from ⟨hinf.1, hinf.2.1, by omega⟩)]
        · rw [if_neg hinf, if_neg (show ¬(expF vfa = 0x7fff ∧ expF vfb = 0x7fff ∧
            signB vfa ≠ 1 - signB vfb) from fun hx => hinf ⟨hx.1, hx.2.1, by
              have := hx.2.2
              omega⟩)]
  · intro hna hnb
    have hnf : ¬(expF vfa < 0x7fff ∧ expF vfb < 0x7fff) := by
      obtain ⟨he, -⟩ := hnb
      omega
    unfold vec_xssubqpo
    rw [if_neg hnf, if_neg hna, if_pos hnb]

/-- Witness for C5 at concrete inputs: 2.0 - 1.0 and 1.0 - NaN. -/
theorem claim5_sub_eq_add_neg_witness :
    (0x3fff * 2 ^ 112 : Nat) < 2 ^ 128 ∧
    vec_xssubqpo (0x4000 * 2 ^ 112) (0x3fff * 2 ^ 112) =
      vec_xsaddqpo (0x4000 * 2 ^ 112) (vec_negf128 (0x3fff * 2 ^ 112)) ∧
    vec_xssubqpo (0x4000 * 2 ^ 112) (0x7fff * 2 ^ 112 + 7) =
      quietNaN (0x7fff * 2 ^ 112 + 7) :=
  ⟨by decide,
   (claim5_sub_eq_add_neg (0x4000 * 2 ^ 112) (0x3fff * 2 ^ 112) (by decide)).1 (by decide),
   (claim5_sub_eq_add_neg (0x4000 * 2 ^ 112) (0x7fff * 2 ^ 112 + 7) (by decide)).2
     (by decide) (by decide)⟩

/-- C6: In vec_xsaddqpo, whenever the combined significand is exactly
zero (exact cancellation or zero operands), the result is +0.0 when the
operand signs differ and a zero with the common sign otherwise; in
particular add(+0.0, -0.0) is +0.0. -/
theorem claim6_zero_cancellation :
    (∀ vfa vfb : Nat, expF vfa < 0x7fff → expF vfb < 0x7fff →
      (addPrep (signB vfa) (expF vfa) (fracF vfa)
        (signB vfb) (expF vfb) (fracF vfb)).s_sig = 0 →
      (signB vfa ≠ signB vfb → vec_xsaddqpo vfa vfb = 0) ∧
      (signB vfa = signB vfb → vec_xsaddqpo vfa vfb = signB vfa * 2 ^ 127)) ∧
    vec_xsaddqpo 0 (2 ^ 127) = 0 := by
  refine ⟨?_, by decide⟩
  intro vfa vfb ha hb hz
  unfold vec_xsaddqpo
  rw [if_pos ⟨ha, hb⟩]
  simp only [if_pos hz, addPrep_diff_sign, addPrep_a_sign]
  constructor
  · intro hs
    rw [if_pos (bne_iff_ne.mpr hs)]
    simp
  · intro hs
    rw [if_neg (show ¬(signB vfa != signB vfb) = true from by simp [bne_iff_ne, hs])]

/-- Witness for C6 at the concrete input pair (+0.0, -0.0). -/
theorem claim6_zero_cancellation_witness :
    expF 0 < 0x7fff ∧ expF (2 ^ 127) < 0x7fff ∧
    (addPrep (signB 0) (expF 0) (fracF 0)
      (signB (2 ^ 127)) (expF (2 ^ 127)) (fracF (2 ^ 127))).s_sig = 0 ∧
    vec_xsaddqpo 0 (2 ^ 127) = 0 :=
  ⟨by decide, by decide, by decide,
   (claim6_zero_cancellation.1 0 (2 ^ 127) (by decide) (by decide) (by decide)).1
     (by decide)⟩

/-- C8: vec_xscvqpudz saturates: finite values at or above 2^64 with
positive sign give all ones, +infinity gives all ones, NaN of either
sign gives 0, any negative input gives 0, finite inputs below 1 give 0,
and positive finite inputs in [1, 2^64) give the truncated integer
value of the significand. -/
theorem claim8_qpudz_saturate :
    ∀ v : Nat,
      (expF v < 0x7fff → 0x3fff + 64 ≤ expF v → signB v = 0 →
        vec_xscvqpudz v = 2 ^ 64 - 1) ∧
      vec_xscvqpudz posInf = 2 ^ 64 - 1 ∧
      (isNaN v → vec_xscvqpudz v = 0) ∧
      (signB v = 1 → vec_xscvqpudz v = 0) ∧
      (expF v < 0x3fff → vec_xscvqpudz v = 0) ∧
      (0x3fff ≤ expF v → expF v < 0x3fff + 64 → signB v = 0 →
        vec_xscvqpudz v = vec_xsxsigqp v / 2 ^ (0x3fff + 112 - expF v)) := by
  intro v
  refine ⟨?_, by decide, ?_, ?_, ?_, ?_⟩
  · intro h1 h2 h3
    unfold vec_xscvqpudz
    rw [if_pos (show expF v ≠ 0x7fff by omega), if_pos ⟨by omega, h3⟩, if_neg (by omega)]
  · rintro ⟨he, hf⟩
    unfold vec_xscvqpudz
    rw [if_neg (show ¬expF v ≠ 0x7fff from fun hc => hc he),
      if_neg (show ¬(fracF v = 0 ∧ signB v = 0) from fun hc => hf hc.1)]
  · intro h1
    unfold vec_xscvqpudz
    by_cases hne : expF v ≠ 0x7fff
    · rw [if_pos hne, if_neg (show ¬(0x3fff ≤ expF v ∧ signB v = 0) from fun hc => by omega)]
    · rw [if_neg hne, if_neg (show ¬(fracF v = 0 ∧ signB v = 0) from fun hc => by omega)]
  · intro h1
    unfold vec_xscvqpudz
    rw [if_pos (show expF v ≠ 0x7fff by omega),
      if_neg (show ¬(0x3fff ≤ expF v ∧ signB v = 0) from fun hc => by omega)]
  · intro h1 h2 h3
    unfold vec_xscvqpudz
    rw [if_pos (show expF v ≠ 0x7fff by omega), if_pos ⟨h1, h3⟩, if_pos h2]
    have hsl : vec_xsxsigqp v < 2 ^ 113 := sig_lt v
    have hm : (0x3fff + 63 - expF v) % 64 = 0x3fff + 63 - expF v :=
      Nat.mod_eq_of_lt (by omega)
    have hq : slq (vec_xsxsigqp v) 15 = vec_xsxsigqp v * 2 ^ 15 := by
      unfold slq
      rw [show (15 : Nat) % 128 = 15 from rfl]
      exact Nat.mod_eq_of_lt (by omega)
    rw [hm, hq, Nat.div_div_eq_div_mul]
    rw [show (2 : Nat) ^ 64 * 2 ^ (0x3fff + 63 - expF v) =
        2 ^ (0x3fff + 112 - expF v) * 2 ^ 15 by
      rw [← pow_add, ← pow_add]
      congr 1
      omega]
    exact Nat.mul_div_mul_right _ _ (Nat.two_pow_pos 15)

/-- Witness for C8 at concrete inputs: a NaN, -1.0, 1.5, and 2^100. -/
theorem claim8_qpudz_saturate_witness :
    vec_xscvqpudz (0x7fff * 2 ^ 112 + 3) = 0 ∧
    vec_xscvqpudz (2 ^ 127 + 0x3fff * 2 ^ 112) = 0 ∧
    vec_xscvqpudz (0x3fff * 2 ^ 112 + 2 ^ 111) =
      vec_xsxsigqp (0x3fff * 2 ^ 112 + 2 ^ 111) /
        2 ^ (0x3fff + 112 - expF (0x3fff * 2 ^ 112 + 2 ^ 111)) ∧
    vec_xscvqpudz ((0x3fff + 100) * 2 ^ 112) = 2 ^ 64 - 1 :=
  ⟨(claim8_qpudz_saturate (0x7fff * 2 ^ 112 + 3)).2.2.1 (by decide),
   (claim8_qpudz_saturate (2 ^ 127 + 0x3fff * 2 ^ 112)).2.2.2.1 (by decide),
   (claim8_qpudz_saturate (0x3fff * 2 ^ 112 + 2 ^ 111)).2.2.2.2.2
     (by decide) (by decide) (by decide),
   (claim8_qpudz_saturate ((0x3fff + 100) * 2 ^ 112)).1
     (by decide) (by decide) (by decide)⟩

/-- C9: vec_cmpequqp is true exactly when neither operand is NaN and
either the two bit patterns are identical or both operands are zeros of
any sign; identical NaN patterns compare false, +0.0 and -0.0 compare
true. -/
theorem claim9_cmpequqp :
    ∀ vfa vfb : Nat, vfa < 2 ^ 128 → vfb < 2 ^ 128 →
      (vec_cmpequqp vfa vfb = true ↔
        (¬isNaN vfa ∧ ¬isNaN vfb ∧ (vfa = vfb ∨ (magF vfa = 0 ∧ magF vfb = 0)))) ∧
      vec_cmpequqp (0x7fff * 2 ^ 112 + 1) (0x7fff * 2 ^ 112 + 1) = false ∧
      vec_cmpequqp 0 (2 ^ 127) = true := by
  intro vfa vfb ha hb
  refine ⟨?_, by decide, by decide⟩
  unfold vec_cmpequqp
  rw [decide_eq_true_eq]
  constructor
  · rintro ⟨hor, hnu⟩
    refine ⟨fun h => hnu (Or.inl h), fun h => hnu (Or.inr h), ?_⟩
    rcases hor with h | h
    · exact Or.inl h
    · right
      have hsplit := lor_split 127 vfa vfb
      rw [h] at hsplit
      have hlo : Nat.lor (vfa % 2 ^ 127) (vfb % 2 ^ 127) < 2 ^ 127 :=
        Nat.or_lt_two_pow (Nat.mod_lt _ (by norm_num)) (Nat.mod_lt _ (by norm_num))
      have hz : Nat.lor (vfa % 2 ^ 127) (vfb % 2 ^ 127) = 0 := by omega
      obtain ⟨z1, z2⟩ := lor_zero_parts _ _ hz
      exact ⟨z1, z2⟩
  · rintro ⟨h1, h2, h3⟩
    refine ⟨?_, by rintro (h | h); exact h1 h; exact h2 h⟩
    rcases h3 with h | ⟨hma, hmb⟩
    · exact Or.inl h
    · unfold magF at hma hmb
      have hva : vfa = 0 ∨ vfa = 2 ^ 127 := by omega
      have hvb : vfb = 0 ∨ vfb = 2 ^ 127 := by omega
      rcases hva with h | h <;> rcases hvb with h2' | h2' <;> subst h <;> subst h2'
      · exact Or.inl rfl
      · exact Or.inr (by decide)
      · exact Or.inr (by decide)
      · exact Or.inl rfl

/-- Witness for C9 at concrete inputs (1.0 against 1.0). -/
theorem claim9_cmpequqp_witness :
    (0x3fff * 2 ^ 112 : Nat) < 2 ^ 128 ∧
    (vec_cmpequqp (0x3fff * 2 ^ 112) (0x3fff * 2 ^ 112) = true ↔
      (¬isNaN (0x3fff * 2 ^ 112) ∧ ¬isNaN (0x3fff * 2 ^ 112) ∧
        ((0x3fff * 2 ^ 112 : Nat) = 0x3fff * 2 ^ 112 ∨
          (magF (0x3fff * 2 ^ 112) = 0 ∧ magF (0x3fff * 2 ^ 112) = 0)))) :=
  ⟨by decide,
   (claim9_cmpequqp (0x3fff * 2 ^ 112) (0x3fff * 2 ^ 112) (by decide) (by decide)).1⟩

/-- C10: In vec_xscvqpdpo a NaN input produces a double NaN with the
quiet bit (double fraction bit 51) set, the high-order payload bits and
the sign preserved, while an infinity input passes through as the same
signed double infinity with no quiet bit added: the data class is
preserved across the narrowing. -/
theorem claim10_qpdpo_class :
    ∀ v : Nat, v < 2 ^ 128 →
      (isNaN v →
        vec_xscvqpdpo v =
          signB v * 2 ^ 63 + 0x7ff * 2 ^ 52 + Nat.lor (fracF v / 2 ^ 60) (2 ^ 51) ∧
        vec_xscvqpdpo v / 2 ^ 52 % 2 ^ 11 = 0x7ff ∧
        vec_xscvqpdpo v % 2 ^ 52 ≠ 0 ∧
        vec_xscvqpdpo v / 2 ^ 51 % 2 = 1 ∧
        vec_xscvqpdpo v / 2 ^ 63 = signB v) ∧
      (isInf v →
        vec_xscvqpdpo v = signB v * 2 ^ 63 + 0x7ff * 2 ^ 52 ∧
        vec_xscvqpdpo v % 2 ^ 52 = 0 ∧
        vec_xscvqpdpo v / 2 ^ 52 % 2 ^ 11 = 0x7ff ∧
        vec_xscvqpdpo v / 2 ^ 63 = signB v) := by
  intro v hv
  have hs : signB v ≤ 1 := signB_le v
  have hfl : fracF v < 2 ^ 112 := fracF_lt v
  constructor
  · rintro ⟨he, hf⟩
    have hsig : vec_xsxsigqp v = fracF v := by
      unfold vec_xsxsigqp
      rw [if_neg (fun hc => hc.2 he)]
    have hds : Nat.lor (fracF v) (2 ^ 111) / 2 ^ 60 =
        Nat.lor (fracF v / 2 ^ 60) (2 ^ 51) := by
      have h := lor_split 60 (fracF v) (2 ^ 111)
      rw [show (2 : Nat) ^ 111 / 2 ^ 60 = 2 ^ 51 by norm_num,
        show (2 : Nat) ^ 111 % 2 ^ 60 = 0 by norm_num] at h
      simp only [lor_eq_or, Nat.or_zero] at h
      simp only [lor_eq_or]
      rw [h]
      have hlt : fracF v % 2 ^ 60 < 2 ^ 60 := Nat.mod_lt _ (by norm_num)
      omega
    have hqlt : fracF v / 2 ^ 60 < 2 ^ 52 := by omega
    have hdlt : Nat.lor (fracF v / 2 ^ 60) (2 ^ 51) < 2 ^ 52 :=
      Nat.or_lt_two_pow hqlt (by norm_num)
    have hq51 : Nat.lor (fracF v / 2 ^ 60) (2 ^ 51) / 2 ^ 51 % 2 = 1 := by
      have h := lor_pow (fracF v / 2 ^ 60) 51
      omega
    have hval : vec_xscvqpdpo v =
        signB v * 2 ^ 63 + 0x7ff * 2 ^ 52 + Nat.lor (fracF v / 2 ^ 60) (2 ^ 51) := by
      unfold vec_xscvqpdpo
      rw [hsig]
      simp only [if_neg (show ¬(expF v ≠ 0x7fff) from fun hc => hc he), if_neg hf]
      rw [hds]
      have h63 : Nat.lor (fracF v / 2 ^ 60) (2 ^ 51) < 2 ^ 63 := by omega
      have hlift : Nat.lor (Nat.lor (fracF v / 2 ^ 60) (2 ^ 51)) (signB v * 2 ^ 63) =
          signB v * 2 ^ 63 + Nat.lor (fracF v / 2 ^ 60) (2 ^ 51) := by
        calc Nat.lor (Nat.lor (fracF v / 2 ^ 60) (2 ^ 51)) (signB v * 2 ^ 63)
            = signB v * 2 ^ 63 ||| Nat.lor (fracF v / 2 ^ 60) (2 ^ 51) :=
              Nat.lor_comm _ _
          _ = 2 ^ 63 * signB v ||| Nat.lor (fracF v / 2 ^ 60) (2 ^ 51) := by
              rw [Nat.mul_comm]
          _ = 2 ^ 63 * signB v + Nat.lor (fracF v / 2 ^ 60) (2 ^ 51) :=
              (Nat.mul_add_lt_is_or h63 (signB v)).symm
          _ = signB v * 2 ^ 63 + Nat.lor (fracF v / 2 ^ 60) (2 ^ 51) := by
              rw [Nat.mul_comm]
      rw [hlift]
      unfold vec_xviexpdp
      omega
    refine ⟨hval, ?_, ?_, ?_, ?_⟩ <;> rw [hval] <;> omega
  · rintro ⟨he, hf⟩
    have hsig : vec_xsxsigqp v = fracF v := by
      unfold vec_xsxsigqp
      rw [if_neg (fun hc => hc.2 he)]
    have hval : vec_xscvqpdpo v = signB v * 2 ^ 63 + 0x7ff * 2 ^ 52 := by
      unfold vec_xscvqpdpo
      rw [hsig]
      simp only [if_neg (show ¬(expF v ≠ 0x7fff) from fun hc => hc he), if_pos hf]
      rw [hf, Nat.zero_div, lor_eq_or, Nat.zero_or]
      unfold vec_xviexpdp
      omega
    refine ⟨hval, ?_, ?_, ?_⟩ <;> rw [hval] <;> omega

/-- Witness for C10 at a NaN input and an infinity input. -/
theorem claim10_qpdpo_class_witness :
    (2 ^ 127 + 0x7fff * 2 ^ 112 + 5 : Nat) < 2 ^ 128 ∧
    vec_xscvqpdpo (2 ^ 127 + 0x7fff * 2 ^ 112 + 5) / 2 ^ 51 % 2 = 1 ∧
    vec_xscvqpdpo negInf = signB negInf * 2 ^ 63 + 0x7ff * 2 ^ 52 :=
  ⟨by decide,
   ((claim10_qpdpo_class (2 ^ 127 + 0x7fff * 2 ^ 112 + 5) (by decide)).1
     (by decide)).2.2.2.1,
   ((claim10_qpdpo_class negInf (by decide)).2 (by decide)).1⟩

/-- C7: Round-trip is exact: converting an unsigned 128-bit integer
that is representable within 113 significant bits (n = m * 2^k with
m < 2^113, including n = 0) to quad-precision with vec_xscvuqqp and
back with the truncating vec_xscvqpuqz returns exactly n. -/
theorem claim7_roundtrip :
    ∀ n m k : Nat, n < 2 ^ 128 → n = m * 2 ^ k → m < 2 ^ 113 →
      vec_xscvqpuqz (vec_xscvuqqp n) = n := by
  intro n m k hn hmk hm
  by_cases h0 : n = 0
  · subst h0
    decide
  · obtain ⟨bl, hbldef⟩ : ∃ bl, bitLenAux 128 n = bl := ⟨_, rfl⟩
    obtain ⟨hb1, hb2, hb3, hb4⟩ := bitLenAux_spec 128 n hn h0
    rw [hbldef] at hb1 hb2 hb3 hb4
    have hclz : clz128 n = 128 - bl := by
      unfold clz128
      rw [hbldef]
    have hclzlt : (128 - bl) % 128 = 128 - bl := Nat.mod_eq_of_lt (by omega)
    have hpowbl : 2 ^ bl * 2 ^ (128 - bl) = 2 ^ 128 := by
      rw [← pow_add]
      congr 1
      omega
    have hq_lt : n * 2 ^ (128 - bl) < 2 ^ 128 := by
      have h1 : n * 2 ^ (128 - bl) < 2 ^ bl * 2 ^ (128 - bl) :=
        Nat.mul_lt_mul_of_lt_of_le hb4 (Nat.le_refl _) (Nat.two_pow_pos _)
      omega
    have hq_ge : 2 ^ 127 ≤ n * 2 ^ (128 - bl) := by
      have h1 : 2 ^ (bl - 1) * 2 ^ (128 - bl) ≤ n * 2 ^ (128 - bl) :=
        Nat.mul_le_mul_right _ hb3
      have h2 : 2 ^ (bl - 1) * 2 ^ (128 - bl) = 2 ^ 127 := by
        rw [← pow_add]
        congr 1
        omega
      omega
    have hslq : slq n (clz128 n) = n * 2 ^ (128 - bl) := by
      unfold slq
      rw [hclz, hclzlt]
      exact Nat.mod_eq_of_lt hq_lt
    have hnk : n < 2 ^ (k + 113) := by
      rw [hmk]
      calc m * 2 ^ k < 2 ^ 113 * 2 ^ k := (Nat.mul_lt_mul_right (Nat.two_pow_pos _)).mpr hm
        _ = 2 ^ (k + 113) := by rw [← pow_add]; congr 1; omega
    have hbk : bl ≤ k + 113 := by
      by_contra hcon
      push_neg at hcon
      have h3 : 2 ^ (k + 113) ≤ 2 ^ (bl - 1) := Nat.pow_le_pow_right (by norm_num) (by omega)
      omega
    have hM : n * 2 ^ (128 - bl) = m * 2 ^ (k + (128 - bl) - 15) * 2 ^ 15 := by
      rw [hmk, Nat.mul_assoc, ← pow_add, Nat.mul_assoc, ← pow_add]
      congr 2
      omega
    obtain ⟨M, hMeq⟩ : ∃ M, n * 2 ^ (128 - bl) = M * 2 ^ 15 := ⟨_, hM⟩
    have hMlt : M < 2 ^ 113 := by omega
    have hMge : 2 ^ 112 ≤ M := by omega
    have hcv : vec_xscvuqqp n = vec_xsiexpqp M (16382 + bl) := by
      unfold vec_xscvuqqp
      rw [if_neg h0]
      simp only [hslq]
      simp only [hMeq]
      simp only [hclz]
      have e1 : M * 2 ^ 15 / 2 ^ 15 % 2 = M % 2 := by omega
      have e2 : Nat.lor (M * 2 ^ 15) (M % 2) = M * 2 ^ 15 + M % 2 :=
        lor_le_one _ _ (by omega) (by omega)
      have e3 : (M * 2 ^ 15 + M % 2 + 0x3fff) / 2 ^ 128 = 0 := by omega
      have e4 : (M * 2 ^ 15 + M % 2 + 0x3fff) % 2 ^ 128 = M * 2 ^ 15 + M % 2 + 0x3fff := by
        omega
      have e5 : srq (M * 2 ^ 15 + M % 2 + 0x3fff) 15 = M := by
        unfold srq
        rw [show (15 : Nat) % 128 = 15 from rfl]
        omega
      simp only [e1, e2, e3, e4]
      rw [if_neg (by norm_num), e5, show 16383 + 127 - (128 - bl) + 0 = 16382 + bl by omega]
    rw [hcv]
    have hexplt : 16382 + bl < 2 ^ 15 := by omega
    have hr : vec_xsiexpqp M (16382 + bl) = (16382 + bl) * 2 ^ 112 + (M - 2 ^ 112) := by
      unfold vec_xsiexpqp
      omega
    rw [hr]
    have f1 : expF ((16382 + bl) * 2 ^ 112 + (M - 2 ^ 112)) = 16382 + bl := by
      unfold expF
      omega
    have f2 : signB ((16382 + bl) * 2 ^ 112 + (M - 2 ^ 112)) = 0 := by
      unfold signB
      omega
    have f3 : vec_xsxsigqp ((16382 + bl) * 2 ^ 112 + (M - 2 ^ 112)) = M := by
      unfold vec_xsxsigqp
      rw [if_pos ⟨by rw [f1]; omega, by rw [f1]; omega⟩]
      unfold fracF
      omega
    unfold vec_xscvqpuqz
    rw [if_pos (by rw [f1]; omega), if_pos ⟨by rw [f1]; omega, f2⟩,
      if_pos (by rw [f1]; omega), f3, f1]
    have g1 : slq M 15 = M * 2 ^ 15 := by
      unfold slq
      rw [show (15 : Nat) % 128 = 15 from rfl]
      exact Nat.mod_eq_of_lt (by omega)
    rw [g1, ← hMeq]
    unfold srq
    rw [show (0x3fff + 127 - (16382 + bl)) % 128 = 128 - bl by omega]
    exact Nat.mul_div_cancel _ (Nat.two_pow_pos _)

/-- Witness for C7 at a concrete input. -/
theorem claim7_roundtrip_witness :
    (123456789 : Nat) < 2 ^ 128 ∧ (123456789 : Nat) = 123456789 * 2 ^ 0 ∧
    (123456789 : Nat) < 2 ^ 113 ∧
    vec_xscvqpuqz (vec_xscvuqqp 123456789) = 123456789 :=
  ⟨by decide, by decide, by decide,
   claim7_roundtrip 123456789 123456789 0 (by decide) (by decide) (by decide)⟩

/-- Witness for C2 at concrete inputs. -/
theorem claim2_overflow_maxfinite_witness :
    expF (vec_xsaddqpo maxFinite maxFinite) ≤ 0x7ffe ∧
    addPack ⟨0, 1, false, 0x7fff, 0⟩ = 1 * 2 ^ 127 + 0x7ffe * 2 ^ 112 + (2 ^ 112 - 1) ∧
    mulPack 1 ⟨0, 0, 0x7fff⟩ = 1 * 2 ^ 127 + 0x7ffe * 2 ^ 112 + (2 ^ 112 - 1) :=
  ⟨(claim2_overflow_maxfinite.1 maxFinite maxFinite (by decide) (by decide)).1,
   claim2_overflow_maxfinite.2.1 ⟨0, 1, false, 0x7fff, 0⟩ (by decide),
   claim2_overflow_maxfinite.2.2.1 1 ⟨0, 0, 0x7fff⟩ (by decide)⟩

end VecF128
